import Mathlib

/-!
# Verification of the blockwise-parallel attention notebook

The notebook computes softmax attention incrementally over chunks of
keys/values with a numerically-stable running max
(`num = num * exp(prev - max_i) + exp_values`,
`den = den * exp(prev - max_i) + exp(alpha - max_i).sum(-1)`),
and distributes the computation over a ring of workers exchanging
(key, value) chunks through FIFO queues.

Every array operation of the source acts independently on each
(batch, query-row) coordinate: the einsum producing `alpha`, the max over
the key axis, the broadcast multiplications and the final division all
map over those coordinates pointwise.  The embedding therefore models the
accumulator per query row, over exact reals; numpy's `-inf`
initialization of the running max is modelled by `Option ℝ` with `none`
playing the role of `-inf` (a separate IEEE-special model `FP` below
captures the float aspects: actual infinities and NaN).
-/

namespace Blockwise

/-- Feature vector of dimension `d` (one row of a `(…, d)` array). -/
abbrev Vec (d : ℕ) := Fin d → ℝ

/-- Row of `np.einsum('bqd,bkd -> bqk', q, k)`: dot product of a query row
with one key row. -/
noncomputable def dot {d : ℕ} (q k : Vec d) : ℝ := ∑ x, q x * k x

/-- Models `np.maximum` on the running-max domain, where `none` stands for the
`-np.inf` initialization (all genuine scores are real). -/
def omax : Option ℝ → Option ℝ → Option ℝ
  | none, b => b
  | some a, none => some a
  | some a, some b => some (max a b)

/-- Models `alpha.max(-1)` for one row: maximum of a list of scores, `none` on the
empty list (numpy rejects an empty reduction axis). -/
def listMax (l : List ℝ) : Option ℝ :=
  l.foldr (fun a m => omax (some a) m) none

/-- Models `np.exp (a - b)` on the running-max domain: `exp (-inf - finite) = 0`.
The case `some a, none` cannot arise in the update (the new max always
dominates the old one); it is given the junk value `0`. -/
noncomputable def expDiff : Option ℝ → Option ℝ → ℝ
  | none, _ => 0
  | some _, none => 0
  | some a, some m => Real.exp (a - m)

/-- Accumulator state for one query row: the running numerator (a feature
vector), denominator and max score of notebook cell 21. -/
structure AccState (d : ℕ) where
  num : Vec d
  den : ℝ
  maxScore : Option ℝ

/-- Models `num = np.zeros(…)`, `den = np.zeros(…)`, `max_i = -np.inf * np.ones(…)`. -/
noncomputable def initState (d : ℕ) : AccState d :=
  { num := fun _ => 0, den := 0, maxScore := none }

/-- One iteration of the chunk loop of cell 21, for one query row, with the
scores `alpha` already computed:
`prev = max_i`; `max_i = np.maximum(alpha.max(-1), max_i)`;
`exp_values = exp(alpha - max_i) @ v`;
`num = num * exp(prev - max_i) + exp_values`;
`den = den * exp(prev - max_i) + exp(alpha - max_i).sum(-1)`. -/
noncomputable def observeS {d : ℕ} (st : AccState d) (scores : List ℝ)
    (values : List (Vec d)) : AccState d :=
  let newMax := omax (listMax scores) st.maxScore
  let corr := expDiff st.maxScore newMax
  let expScores := scores.map fun a => expDiff (some a) newMax
  { num := fun i =>
      st.num i * corr + (List.zipWith (fun e v => e * v i) expScores values).sum
    den := st.den * corr + expScores.sum
    maxScore := newMax }

/-- One (score-block, value-block) chunk, restricted to a single query row:
the row of scores of this query against the chunk's keys, and the chunk's
value rows. -/
abbrev Chunk (d : ℕ) := List ℝ × List (Vec d)

/-- A chunk as the source produces it: a nonempty key axis, with exactly one
value row per key (both are `(b, s, d)` arrays sharing `s`). -/
def goodChunk {d : ℕ} (c : Chunk d) : Prop :=
  c.1 ≠ [] ∧ c.1.length = c.2.length

/-- The inner `for j, (k, v) in enumerate(zip(K, V))` loop of cell 21:
fold the accumulator update over a list of chunks. -/
noncomputable def runChunks {d : ℕ} (st : AccState d) (chunks : List (Chunk d)) :
    AccState d :=
  chunks.foldl (fun st c => observeS st c.1 c.2) st

/-- Models `attn_outputs.append(num / den[..., None])`: the finalized output row. -/
noncomputable def finalize {d : ℕ} (st : AccState d) : Vec d :=
  fun i => st.num i / st.den

/-- All (score, value-row) pairs of a list of chunks, in order. -/
def flatPairs {d : ℕ} (chunks : List (Chunk d)) : List (ℝ × Vec d) :=
  chunks.flatMap fun c => c.1.zip c.2

/-- Exact (unstabilized) softmax numerator over a list of pairs:
`Σ exp(score) * value`. -/
noncomputable def exactNum {d : ℕ} (pairs : List (ℝ × Vec d)) (i : Fin d) : ℝ :=
  (pairs.map fun p => Real.exp p.1 * p.2 i).sum

/-- Exact (unstabilized) softmax denominator: `Σ exp(score)`. -/
noncomputable def exactDen {d : ℕ} (pairs : List (ℝ × Vec d)) : ℝ :=
  (pairs.map fun p => Real.exp p.1).sum

/-- The exact softmax-weighted value sum over a list of pairs. -/
noncomputable def softmaxSum {d : ℕ} (pairs : List (ℝ × Vec d)) (i : Fin d) : ℝ :=
  exactNum pairs i / exactDen pairs

section ListMaxLemmas

theorem omax_comm (a b : Option ℝ) : omax a b = omax b a := by
  cases a <;> cases b <;> simp [omax, max_comm]

theorem omax_assoc (a b c : Option ℝ) : omax (omax a b) c = omax a (omax b c) := by
  cases a <;> cases b <;> cases c <;> simp [omax, max_assoc]

@[simp] theorem listMax_nil : listMax [] = none := rfl

@[simp] theorem listMax_cons (a : ℝ) (l : List ℝ) :
    listMax (a :: l) = omax (some a) (listMax l) := rfl

theorem listMax_append (l₁ l₂ : List ℝ) :
    listMax (l₁ ++ l₂) = omax (listMax l₁) (listMax l₂) := by
  induction l₁ with
  | nil => simp [omax]
  | cons a t ih => simp [listMax_cons, ih, omax_assoc]

theorem listMax_isSome {l : List ℝ} (h : l ≠ []) : ∃ B, listMax l = some B := by
  cases l with
  | nil => exact absurd rfl h
  | cons a t =>
    rcases ht : listMax t with _ | B
    · exact ⟨a, by simp [listMax_cons, ht, omax]⟩
    · exact ⟨max a B, by simp [listMax_cons, ht, omax]⟩

theorem le_listMax {l : List ℝ} {a B : ℝ} (ha : a ∈ l) (hB : listMax l = some B) :
    a ≤ B := by
  induction l generalizing B with
  | nil => cases ha
  | cons x t ih =>
    rcases ht : listMax t with _ | C <;> rw [listMax_cons, ht] at hB
    · have htnil : t = [] := by
        by_contra hne
        obtain ⟨C, hC⟩ := listMax_isSome hne
        rw [hC] at ht
        cases ht
      subst htnil
      simp only [omax, Option.some.injEq] at hB
      rcases List.mem_singleton.mp ha with rfl
      exact le_of_eq hB
    · simp only [omax, Option.some.injEq] at hB
      rcases List.mem_cons.mp ha with rfl | hat
      · exact hB ▸ le_max_left _ _
      · exact hB ▸ (ih hat ht).trans (le_max_right _ _)

end ListMaxLemmas

@[simp] theorem expDiff_some_some (a m : ℝ) :
    expDiff (some a) (some m) = Real.exp (a - m) := rfl

@[simp] theorem expDiff_none_left (b : Option ℝ) : expDiff none b = 0 := rfl

theorem zipWith_eq_map_zip {α β γ : Type*} (f : α → β → γ) :
    ∀ (l₁ : List α) (l₂ : List β),
      List.zipWith f l₁ l₂ = (l₁.zip l₂).map fun p => f p.1 p.2
  | [], _ => by simp
  | _ :: _, [] => by simp
  | a :: t₁, b :: t₂ => by simp [zipWith_eq_map_zip f t₁ t₂]

theorem exactNum_append {d : ℕ} (p q : List (ℝ × Vec d)) (i : Fin d) :
    exactNum (p ++ q) i = exactNum p i + exactNum q i := by
  simp [exactNum]

theorem exactDen_append {d : ℕ} (p q : List (ℝ × Vec d)) :
    exactDen (p ++ q) = exactDen p + exactDen q := by
  simp [exactDen]

/-- The per-chunk numerator contribution `exp(alpha - max_i) @ v` equals
`exp(-max_i)` times the exact numerator of the chunk's pairs. -/
theorem chunk_num_eq {d : ℕ} (c : Chunk d) (M' : ℝ) (i : Fin d) :
    (List.zipWith (fun e v => e * v i)
        (c.1.map fun a => expDiff (some a) (some M')) c.2).sum
      = Real.exp (-M') * exactNum (c.1.zip c.2) i := by
  rw [List.zipWith_map_left, zipWith_eq_map_zip, exactNum, ← List.sum_map_mul_left]
  apply congrArg List.sum
  apply List.map_congr_left
  intro p _
  show Real.exp (p.1 - M') * p.2 i = Real.exp (-M') * (Real.exp p.1 * p.2 i)
  rw [sub_eq_add_neg, Real.exp_add]
  ring

/-- The per-chunk denominator contribution `exp(alpha - max_i).sum(-1)` equals
`exp(-max_i)` times the exact denominator of the chunk's pairs. -/
theorem chunk_den_eq {d : ℕ} (c : Chunk d) (hlen : c.1.length = c.2.length)
    (M' : ℝ) :
    (c.1.map fun a => expDiff (some a) (some M')).sum
      = Real.exp (-M') * exactDen (c.1.zip c.2) := by
  have hfst : (c.1.zip c.2).map Prod.fst = c.1 := List.map_fst_zip _ _ hlen.le
  have h2 : exactDen (c.1.zip c.2) = (c.1.map Real.exp).sum := by
    conv_rhs => rw [← hfst, List.map_map]
    rfl
  rw [h2, ← List.sum_map_mul_left]
  apply congrArg List.sum
  apply List.map_congr_left
  intro a _
  show Real.exp (a - M') = Real.exp (-M') * Real.exp a
  rw [sub_eq_add_neg, Real.exp_add]
  ring

/-- Invariant tying an accumulator state to the flat list of (score, value)
pairs ingested so far: the running max is the exact max of all scores, and
numerator/denominator are the exact sums rescaled by `exp(-max)`. -/
def StateInv {d : ℕ} (st : AccState d) (pairs : List (ℝ × Vec d)) : Prop :=
  ∃ M : ℝ, st.maxScore = some M ∧ listMax (pairs.map Prod.fst) = some M ∧
    (∀ i, st.num i = Real.exp (-M) * exactNum pairs i) ∧
    st.den = Real.exp (-M) * exactDen pairs

theorem observe_init {d : ℕ} {c : Chunk d} (hc : goodChunk c) :
    StateInv (observeS (initState d) c.1 c.2) (c.1.zip c.2) := by
  obtain ⟨hne, hlen⟩ := hc
  obtain ⟨B, hB⟩ := listMax_isSome hne
  have hfst : (c.1.zip c.2).map Prod.fst = c.1 := List.map_fst_zip _ _ hlen.le
  refine ⟨B, ?_, ?_, ?_, ?_⟩
  · simp [observeS, initState, hB, omax]
  · rw [hfst, hB]
  · intro i
    show (0 : ℝ) * expDiff none (omax (listMax c.1) none) + _ = _
    rw [zero_mul, zero_add, hB]
    show (List.zipWith (fun e v => e * v i)
        (c.1.map fun a => expDiff (some a) (omax (some B) none)) c.2).sum = _
    rw [show omax (some B) none = some B from rfl]
    exact chunk_num_eq c B i
  · show (0 : ℝ) * expDiff none (omax (listMax c.1) none) + _ = _
    rw [zero_mul, zero_add, hB]
    show (c.1.map fun a => expDiff (some a) (omax (some B) none)).sum = _
    rw [show omax (some B) none = some B from rfl]
    exact chunk_den_eq c hlen B

theorem observe_step {d : ℕ} {st : AccState d} {pairs : List (ℝ × Vec d)}
    (hInv : StateInv st pairs) {c : Chunk d} (hc : goodChunk c) :
    StateInv (observeS st c.1 c.2) (pairs ++ c.1.zip c.2) := by
  obtain ⟨M, hmax, hlmax, hnum, hden⟩ := hInv
  obtain ⟨hne, hlen⟩ := hc
  obtain ⟨B, hB⟩ := listMax_isSome hne
  have hfst : (c.1.zip c.2).map Prod.fst = c.1 := List.map_fst_zip _ _ hlen.le
  have hnewMax : omax (listMax c.1) st.maxScore = some (max B M) := by
    rw [hB, hmax]; rfl
  have hcorr : expDiff st.maxScore (omax (listMax c.1) st.maxScore)
      = Real.exp (M - max B M) := by
    rw [hmax, hB]; rfl
  have hexp : ∀ x : ℝ, Real.exp (-M) * x * Real.exp (M - max B M)
      = Real.exp (-(max B M)) * x := by
    intro x
    rw [mul_comm (Real.exp (-M)) x, mul_assoc, ← Real.exp_add]
    ring_nf
  refine ⟨max B M, ?_, ?_, ?_, ?_⟩
  · show omax (listMax c.1) st.maxScore = some (max B M)
    exact hnewMax
  · rw [List.map_append, listMax_append, hlmax, hfst, hB]
    show some (max M B) = some (max B M)
    rw [max_comm]
  · intro i
    show st.num i * expDiff st.maxScore (omax (listMax c.1) st.maxScore)
        + (List.zipWith (fun e v => e * v i)
            (c.1.map fun a => expDiff (some a) (omax (listMax c.1) st.maxScore))
            c.2).sum = _
    rw [hcorr, hnum i, hexp, hnewMax, chunk_num_eq c (max B M) i,
      exactNum_append, mul_add]
  · show st.den * expDiff st.maxScore (omax (listMax c.1) st.maxScore)
        + (c.1.map fun a => expDiff (some a) (omax (listMax c.1) st.maxScore)).sum
        = _
    rw [hcorr, hden, hexp, hnewMax, chunk_den_eq c hlen (max B M),
      exactDen_append, mul_add]

theorem flatPairs_append {d : ℕ} (l₁ l₂ : List (Chunk d)) :
    flatPairs (l₁ ++ l₂) = flatPairs l₁ ++ flatPairs l₂ := by
  simp [flatPairs]

theorem runChunks_append {d : ℕ} (st : AccState d) (l₁ l₂ : List (Chunk d)) :
    runChunks st (l₁ ++ l₂) = runChunks (runChunks st l₁) l₂ :=
  List.foldl_append _ _ _ _

/-- Main accumulator lemma: after any nonempty sequence of well-formed
chunks, the state satisfies the invariant relative to all ingested pairs. -/
theorem run_spec {d : ℕ} (chunks : List (Chunk d)) (hne : chunks ≠ [])
    (hg : ∀ c ∈ chunks, goodChunk c) :
    StateInv (runChunks (initState d) chunks) (flatPairs chunks) := by
  induction chunks using List.reverseRecOn with
  | nil => exact absurd rfl hne
  | append_singleton l c ih =>
    rw [runChunks_append, flatPairs_append]
    have hc : goodChunk c := hg c (by simp)
    have hflat : flatPairs [c] = c.1.zip c.2 := by simp [flatPairs]
    rw [hflat]
    cases l with
    | nil =>
      show StateInv (observeS (initState d) c.1 c.2) ([] ++ c.1.zip c.2)
      rw [List.nil_append]
      exact observe_init hc
    | cons c₀ t =>
      have hInv := ih (by simp) (fun x hx => hg x (List.mem_append_left _ hx))
      exact observe_step hInv hc

theorem exactDen_pos {d : ℕ} {pairs : List (ℝ × Vec d)} (h : pairs ≠ []) :
    0 < exactDen pairs := by
  apply List.sum_pos
  · intro x hx
    obtain ⟨p, _, rfl⟩ := List.mem_map.mp hx
    exact Real.exp_pos _
  · simpa using h

theorem flatPairs_ne_nil {d : ℕ} {chunks : List (Chunk d)} (hne : chunks ≠ [])
    (hg : ∀ c ∈ chunks, goodChunk c) : flatPairs chunks ≠ [] := by
  cases chunks with
  | nil => exact absurd rfl hne
  | cons c t =>
    obtain ⟨hc1, hlen⟩ := hg c (by simp)
    have hzlen : (c.1.zip c.2).length = c.1.length := by
      rw [List.length_zip, ← hlen, min_self]
    have h0 : c.1.zip c.2 ≠ [] := by
      intro hz
      apply hc1
      apply List.eq_nil_of_length_eq_zero
      rw [← hzlen, hz]
      rfl
    intro hcontra
    simp only [flatPairs, List.flatMap_cons] at hcontra
    exact h0 (List.append_eq_nil.mp hcontra).1

/-- The `finalize` of a run over well-formed chunks is the exact
softmax-weighted value sum of everything ingested. -/
theorem finalize_eq_softmaxSum {d : ℕ} (chunks : List (Chunk d))
    (hne : chunks ≠ []) (hg : ∀ c ∈ chunks, goodChunk c) (i : Fin d) :
    finalize (runChunks (initState d) chunks) i
      = softmaxSum (flatPairs chunks) i := by
  obtain ⟨M, _, _, hnum, hden⟩ := run_spec chunks hne hg
  show (runChunks (initState d) chunks).num i
      / (runChunks (initState d) chunks).den = _
  rw [hnum i, hden, softmaxSum, mul_div_mul_left _ _ (Real.exp_ne_zero _)]

/-- A concrete well-formed chunk used by the witnesses below. -/
noncomputable def unitChunk : Chunk 1 := ([0], [fun _ => 0])

/-- Claim **C1** (accumulator prefix invariant): for every sequence of observe
updates over well-formed chunks — hence after every chunk update, since any
update point is the end of such a sequence — `running_numerator /
running_denominator` equals, for each query row independently, the exact
softmax-weighted value sum over exactly the pairs ingested so far, over
exact reals. -/
theorem c1_accumulator_invariant {d : ℕ} (chunks : List (Chunk d))
    (hne : chunks ≠ []) (hg : ∀ c ∈ chunks, goodChunk c) (i : Fin d) :
    (runChunks (initState d) chunks).num i / (runChunks (initState d) chunks).den
      = softmaxSum (flatPairs chunks) i :=
  finalize_eq_softmaxSum chunks hne hg i

/-- Witness for C1 at a concrete one-chunk input. -/
theorem c1_accumulator_invariant_witness :
    (([unitChunk] : List (Chunk 1)) ≠ [] ∧ ∀ c ∈ [unitChunk], goodChunk c) ∧
      (runChunks (initState 1) [unitChunk]).num 0
          / (runChunks (initState 1) [unitChunk]).den
        = softmaxSum (flatPairs [unitChunk]) 0 :=
  ⟨⟨by simp, by simp [unitChunk, goodChunk]⟩,
   c1_accumulator_invariant [unitChunk] (by simp)
     (by simp [unitChunk, goodChunk]) 0⟩

theorem perm_flatPairs {d : ℕ} {l₁ l₂ : List (Chunk d)} (h : l₁.Perm l₂) :
    (flatPairs l₁).Perm (flatPairs l₂) := by
  induction h with
  | nil => exact List.Perm.refl _
  | cons x _ ih =>
    simp only [flatPairs, List.flatMap_cons]
    exact ih.append_left _
  | swap x y l =>
    simp only [flatPairs, List.flatMap_cons, ← List.append_assoc]
    exact (List.perm_append_comm).append_right _
  | trans _ _ ih₁ ih₂ => exact ih₁.trans ih₂

theorem softmaxSum_perm {d : ℕ} {p q : List (ℝ × Vec d)} (h : p.Perm q)
    (i : Fin d) : softmaxSum p i = softmaxSum q i := by
  unfold softmaxSum exactNum exactDen
  rw [(h.map _).sum_eq, (h.map _).sum_eq]

/-- Feeding a permuted chunk list yields the same finalized result. -/
theorem finalize_perm {d : ℕ} {l₁ l₂ : List (Chunk d)} (hperm : l₁.Perm l₂)
    (hne : l₁ ≠ []) (hg : ∀ x ∈ l₁, goodChunk x) :
    finalize (runChunks (initState d) l₁) = finalize (runChunks (initState d) l₂) := by
  have hne₂ : l₂ ≠ [] := fun h => hne ((h ▸ hperm : l₁.Perm []).eq_nil)
  have hg₂ : ∀ x ∈ l₂, goodChunk x := fun x hx => hg x (hperm.mem_iff.mpr hx)
  funext i
  rw [finalize_eq_softmaxSum l₁ hne hg i, finalize_eq_softmaxSum l₂ hne₂ hg₂ i]
  exact softmaxSum_perm (perm_flatPairs hperm) i

/-- Claim **C6** (order invariance of chunk ingestion): feeding the same finite
set of chunks to the accumulator in any permuted order yields the same
final `running_numerator / running_denominator` result, over exact reals. -/
theorem c6_order_invariance {d : ℕ} (l₁ l₂ : List (Chunk d))
    (hperm : l₁.Perm l₂) (hne : l₁ ≠ []) (hg : ∀ x ∈ l₁, goodChunk x) :
    finalize (runChunks (initState d) l₁) = finalize (runChunks (initState d) l₂) :=
  finalize_perm hperm hne hg

/-- Witness for C6 on a concrete permutation. -/
theorem c6_order_invariance_witness :
    (([unitChunk] : List (Chunk 1)).Perm [unitChunk] ∧ [unitChunk] ≠ [] ∧
        ∀ x ∈ [unitChunk], goodChunk x) ∧
      finalize (runChunks (initState 1) [unitChunk])
        = finalize (runChunks (initState 1) [unitChunk]) :=
  ⟨⟨List.Perm.refl _, by simp, by simp [unitChunk, goodChunk]⟩,
   c6_order_invariance [unitChunk] [unitChunk] (List.Perm.refl _) (by simp)
     (by simp [unitChunk, goodChunk])⟩

/-- Claim **C4** (chunk-size invariance): any two chunkings carrying the same
flat (score, value) stream — in particular chunks of size 1, size 2, or a
single full-length chunk — yield identical final results, and the single
full-length chunk case equals plain softmax attention
`softmax(scores) · V`. -/
theorem c4_chunk_size_invariance {d : ℕ} (l₁ l₂ : List (Chunk d)) (c : Chunk d)
    (h₁ : l₁ ≠ []) (hg₁ : ∀ x ∈ l₁, goodChunk x)
    (h₂ : l₂ ≠ []) (hg₂ : ∀ x ∈ l₂, goodChunk x)
    (hflat : flatPairs l₁ = flatPairs l₂) (hc : goodChunk c) :
    finalize (runChunks (initState d) l₁) = finalize (runChunks (initState d) l₂)
      ∧ finalize (runChunks (initState d) [c]) = softmaxSum (c.1.zip c.2) := by
  constructor
  · funext i
    rw [finalize_eq_softmaxSum l₁ h₁ hg₁ i, finalize_eq_softmaxSum l₂ h₂ hg₂ i,
      hflat]
  · funext i
    rw [finalize_eq_softmaxSum [c] (by simp) (by simpa using hc) i]
    simp [flatPairs]

/-- Witness for C4 on concrete chunkings. -/
theorem c4_chunk_size_invariance_witness :
    (([unitChunk] : List (Chunk 1)) ≠ [] ∧ (∀ x ∈ [unitChunk], goodChunk x) ∧
        flatPairs [unitChunk] = flatPairs [unitChunk] ∧ goodChunk unitChunk) ∧
      (finalize (runChunks (initState 1) [unitChunk])
          = finalize (runChunks (initState 1) [unitChunk])
        ∧ finalize (runChunks (initState 1) [unitChunk])
            = softmaxSum (unitChunk.1.zip unitChunk.2)) :=
  ⟨⟨by simp, by simp [unitChunk, goodChunk], rfl, by simp [unitChunk, goodChunk]⟩,
   c4_chunk_size_invariance [unitChunk] [unitChunk] unitChunk (by simp)
     (by simp [unitChunk, goodChunk]) (by simp) (by simp [unitChunk, goodChunk])
     rfl (by simp [unitChunk, goodChunk])⟩

/-- Claim **C5** (numerical stability via max subtraction): at any reachable
accumulator state, for any next nonempty score block, the correction
exponential `exp(running_max - new_max)` and every block exponential
`exp(score - new_max)` lie in `[0, 1]`; moreover after any nonempty prefix
the denominator is strictly positive, so the final division is
well-defined (over exact reals no infinity or NaN can arise, and these
bounds are what prevents float overflow for scores of any magnitude). -/
theorem c5_exponentials_bounded {d : ℕ} (chunks : List (Chunk d))
    (hg : ∀ x ∈ chunks, goodChunk x) (scores : List ℝ) (hs : scores ≠ []) :
    (0 ≤ expDiff (runChunks (initState d) chunks).maxScore
          (omax (listMax scores) (runChunks (initState d) chunks).maxScore) ∧
      expDiff (runChunks (initState d) chunks).maxScore
          (omax (listMax scores) (runChunks (initState d) chunks).maxScore) ≤ 1) ∧
    (∀ a ∈ scores,
        0 ≤ expDiff (some a)
            (omax (listMax scores) (runChunks (initState d) chunks).maxScore) ∧
        expDiff (some a)
            (omax (listMax scores) (runChunks (initState d) chunks).maxScore) ≤ 1) ∧
    (chunks ≠ [] → 0 < (runChunks (initState d) chunks).den) := by
  obtain ⟨B, hB⟩ := listMax_isSome hs
  refine ⟨?_, ?_, ?_⟩
  · rcases hm : (runChunks (initState d) chunks).maxScore with _ | M
    · simp
    · rw [hB]
      show 0 ≤ Real.exp (M - max B M) ∧ Real.exp (M - max B M) ≤ 1
      exact ⟨(Real.exp_pos _).le,
        Real.exp_le_one_iff.mpr (by simp [le_max_right])⟩
  · intro a ha
    have haB : a ≤ B := le_listMax ha hB
    rcases hm : (runChunks (initState d) chunks).maxScore with _ | M
    · rw [hB]
      show 0 ≤ Real.exp (a - B) ∧ Real.exp (a - B) ≤ 1
      exact ⟨(Real.exp_pos _).le, Real.exp_le_one_iff.mpr (by simp [haB])⟩
    · rw [hB]
      show 0 ≤ Real.exp (a - max B M) ∧ Real.exp (a - max B M) ≤ 1
      refine ⟨(Real.exp_pos _).le, Real.exp_le_one_iff.mpr ?_⟩
      simp only [sub_nonpos]
      exact haB.trans (le_max_left _ _)
  · intro hne
    obtain ⟨M, _, _, _, hden⟩ := run_spec chunks hne hg
    rw [hden]
    exact mul_pos (Real.exp_pos _) (exactDen_pos (flatPairs_ne_nil hne hg))

/-- Witness for C5 at a concrete state and score block. -/
theorem c5_exponentials_bounded_witness :
    ((∀ x ∈ ([unitChunk] : List (Chunk 1)), goodChunk x) ∧ ([(0:ℝ)] ≠ [])) ∧
      (0 ≤ expDiff (runChunks (initState 1) [unitChunk]).maxScore
            (omax (listMax [0]) (runChunks (initState 1) [unitChunk]).maxScore) ∧
        expDiff (runChunks (initState 1) [unitChunk]).maxScore
            (omax (listMax [0]) (runChunks (initState 1) [unitChunk]).maxScore) ≤ 1) :=
  ⟨⟨by simp [unitChunk, goodChunk], by simp⟩,
   (c5_exponentials_bounded [unitChunk] (by simp [unitChunk, goodChunk]) [0]
     (by simp)).1⟩

/-!
## IEEE special-value model

The notebook runs on numpy doubles.  `FP` models a double as a finite
exact real, `+inf`, `-inf` or NaN, with the IEEE-754 propagation rules for
the special values (no rounding is modelled; the NaN/Inf claims are about
special-value propagation only, e.g. `exp(-inf) = 0`, `-inf - -inf = nan`,
`0 * nan = nan`).
-/

/-- A numpy double: finite real, `+inf`, `-inf`, or NaN. -/
inductive FP where
  | fin : ℝ → FP
  | pinf : FP
  | ninf : FP
  | nan : FP

open Classical in
/-- IEEE addition. -/
noncomputable def fadd : FP → FP → FP
  | .nan, _ => .nan
  | _, .nan => .nan
  | .pinf, .ninf => .nan
  | .ninf, .pinf => .nan
  | .pinf, _ => .pinf
  | _, .pinf => .pinf
  | .ninf, _ => .ninf
  | _, .ninf => .ninf
  | .fin a, .fin b => .fin (a + b)

open Classical in
/-- IEEE subtraction; in particular `-inf - -inf = nan` and
`-inf - finite = -inf`. -/
noncomputable def fsub : FP → FP → FP
  | .nan, _ => .nan
  | _, .nan => .nan
  | .pinf, .pinf => .nan
  | .ninf, .ninf => .nan
  | .pinf, _ => .pinf
  | .ninf, _ => .ninf
  | .fin _, .pinf => .ninf
  | .fin _, .ninf => .pinf
  | .fin a, .fin b => .fin (a - b)

open Classical in
/-- IEEE multiplication; in particular `0 * nan = nan` and `0 * inf = nan`. -/
noncomputable def fmul : FP → FP → FP
  | .nan, _ => .nan
  | _, .nan => .nan
  | .fin a, .fin b => .fin (a * b)
  | .fin a, .pinf => if a = 0 then .nan else if 0 < a then .pinf else .ninf
  | .fin a, .ninf => if a = 0 then .nan else if 0 < a then .ninf else .pinf
  | .pinf, .fin b => if b = 0 then .nan else if 0 < b then .pinf else .ninf
  | .ninf, .fin b => if b = 0 then .nan else if 0 < b then .ninf else .pinf
  | .pinf, .pinf => .pinf
  | .pinf, .ninf => .ninf
  | .ninf, .pinf => .ninf
  | .ninf, .ninf => .pinf

open Classical in
/-- IEEE division; in particular `0 / 0 = nan` and `nan / nan = nan`. -/
noncomputable def fdiv : FP → FP → FP
  | .nan, _ => .nan
  | _, .nan => .nan
  | .pinf, .pinf => .nan
  | .pinf, .ninf => .nan
  | .ninf, .pinf => .nan
  | .ninf, .ninf => .nan
  | .pinf, .fin b => if 0 ≤ b then .pinf else .ninf
  | .ninf, .fin b => if 0 ≤ b then .ninf else .pinf
  | .fin _, .pinf => .fin 0
  | .fin _, .ninf => .fin 0
  | .fin a, .fin b =>
      if b = 0 then (if a = 0 then .nan else if 0 < a then .pinf else .ninf)
      else .fin (a / b)

/-- Models `np.exp` on doubles: `exp(-inf) = 0`, `exp(inf) = inf`, `exp(nan) = nan`. -/
noncomputable def fexp : FP → FP
  | .nan => .nan
  | .pinf => .pinf
  | .ninf => .fin 0
  | .fin a => .fin (Real.exp a)

/-- Models `np.maximum` on doubles (NaN-propagating). -/
noncomputable def fmax : FP → FP → FP
  | .nan, _ => .nan
  | _, .nan => .nan
  | .pinf, _ => .pinf
  | _, .pinf => .pinf
  | .ninf, b => b
  | a, .ninf => a
  | .fin a, .fin b => .fin (max a b)

/-- Models `np.sum` (reduction starting from `0`). -/
noncomputable def fsum (l : List FP) : FP := l.foldl fadd (.fin 0)

/-- Models `alpha.max(-1)` on doubles (max-reduction over a nonempty axis). -/
noncomputable def blockMaxFP (l : List FP) : FP := l.foldl fmax .ninf

/-- The accumulator state of cell 21 / `start_host` on doubles. -/
structure FPState (d : ℕ) where
  numF : Fin d → FP
  denF : FP
  maxF : FP

/-- Models `num = zeros`, `den = zeros`, `max_i = -inf * ones`. -/
noncomputable def initFP (d : ℕ) : FPState d :=
  { numF := fun _ => .fin 0, denF := .fin 0, maxF := .ninf }

/-- One iteration of the chunk loop on doubles, identical to `observeS` but
with IEEE special-value semantics.  Note that the correction multiply
`num * exp(prev - max_i)` is executed unconditionally — also on the very
first call, where `prev` is `-inf`. -/
noncomputable def observeFP {d : ℕ} (st : FPState d) (scores : List FP)
    (values : List (Fin d → FP)) : FPState d :=
  let newMax := fmax (blockMaxFP scores) st.maxF
  let corr := fexp (fsub st.maxF newMax)
  let expScores := scores.map fun a => fexp (fsub a newMax)
  { numF := fun i =>
      fadd (fmul (st.numF i) corr)
        (fsum (List.zipWith (fun e v => fmul e (v i)) expScores values))
    denF := fadd (fmul st.denF corr) (fsum expScores)
    maxF := newMax }

/-- Models `num / den[..., None]` on doubles. -/
noncomputable def finalizeFP {d : ℕ} (st : FPState d) (i : Fin d) : FP :=
  fdiv (st.numF i) st.denF

@[simp] theorem fadd_fin_fin (a b : ℝ) : fadd (.fin a) (.fin b) = .fin (a + b) := rfl

@[simp] theorem fmul_fin_fin (a b : ℝ) : fmul (.fin a) (.fin b) = .fin (a * b) := rfl

@[simp] theorem fsub_fin_fin (a b : ℝ) : fsub (.fin a) (.fin b) = .fin (a - b) := rfl

@[simp] theorem fsub_ninf_fin (m : ℝ) : fsub .ninf (.fin m) = .ninf := rfl

@[simp] theorem fexp_fin (a : ℝ) : fexp (.fin a) = .fin (Real.exp a) := rfl

@[simp] theorem fexp_ninf : fexp .ninf = .fin 0 := rfl

@[simp] theorem fmax_fin_fin (a b : ℝ) : fmax (.fin a) (.fin b) = .fin (max a b) := rfl

@[simp] theorem fmax_fin_ninf (a : ℝ) : fmax (.fin a) .ninf = .fin a := rfl

@[simp] theorem fmax_ninf_fin (a : ℝ) : fmax .ninf (.fin a) = .fin a := rfl

theorem fdiv_fin_fin (a b : ℝ) (hb : b ≠ 0) :
    fdiv (.fin a) (.fin b) = .fin (a / b) := by
  show (if b = 0 then _ else FP.fin (a / b)) = _
  rw [if_neg hb]

theorem fsum_map_fin (xs : List ℝ) : fsum (xs.map FP.fin) = .fin xs.sum := by
  have aux : ∀ (l : List ℝ) (a : ℝ),
      List.foldl fadd (.fin a) (l.map FP.fin) = .fin (a + l.sum) := by
    intro l
    induction l with
    | nil => intro a; simp
    | cons b t ih =>
      intro a
      simp only [List.map_cons, List.foldl_cons, fadd_fin_fin, ih,
        List.sum_cons]
      rw [add_assoc]
  rw [fsum, aux]
  rw [zero_add]

theorem blockMaxFP_map_fin {xs : List ℝ} (h : xs ≠ []) :
    ∃ B : ℝ, blockMaxFP (xs.map FP.fin) = .fin B := by
  have aux : ∀ (l : List ℝ) (a : ℝ),
      ∃ B, List.foldl fmax (.fin a) (l.map FP.fin) = .fin B := by
    intro l
    induction l with
    | nil => intro a; exact ⟨a, rfl⟩
    | cons b t ih =>
      intro a
      simp only [List.map_cons, List.foldl_cons, fmax_fin_fin]
      exact ih (max a b)
  cases xs with
  | nil => exact absurd rfl h
  | cons a t =>
    simp only [blockMaxFP, List.map_cons, List.foldl_cons, fmax_ninf_fin]
    exact aux t a

/-- Claim **C7 amended** (finalize behaviour): after at least one observe call on
well-formed chunks the code returns `running_numerator /
running_denominator`, whose denominator is strictly positive (a plain real
division, no failure); after zero observe calls it performs the division
anyway, which on doubles is `0 / 0 = NaN`, silently returned rather than
raised as an error (see the counterexample). -/
theorem c7_finalize_nonempty {d : ℕ} (chunks : List (Chunk d))
    (hne : chunks ≠ []) (hg : ∀ x ∈ chunks, goodChunk x) :
    0 < (runChunks (initState d) chunks).den ∧
      ∀ i, finalize (runChunks (initState d) chunks) i
          = (runChunks (initState d) chunks).num i
            / (runChunks (initState d) chunks).den := by
  refine ⟨?_, fun i => rfl⟩
  obtain ⟨M, _, _, _, hden⟩ := run_spec chunks hne hg
  rw [hden]
  exact mul_pos (Real.exp_pos _) (exactDen_pos (flatPairs_ne_nil hne hg))

/-- Witness for the amended C7. -/
theorem c7_finalize_nonempty_witness :
    (([unitChunk] : List (Chunk 1)) ≠ [] ∧ ∀ x ∈ [unitChunk], goodChunk x) ∧
      (0 < (runChunks (initState 1) [unitChunk]).den ∧
        ∀ i, finalize (runChunks (initState 1) [unitChunk]) i
            = (runChunks (initState 1) [unitChunk]).num i
              / (runChunks (initState 1) [unitChunk]).den) :=
  ⟨⟨by simp, by simp [unitChunk, goodChunk]⟩,
   c7_finalize_nonempty [unitChunk] (by simp) (by simp [unitChunk, goodChunk])⟩

/-- Claim **C7 counterexample**: `finalize` after zero observe calls does not
fail with an error — on doubles it silently returns NaN (`0 / 0`),
contradicting the claim that it never silently returns zero or NaN. -/
theorem c7_counterexample : finalizeFP (initFP 1) 0 = FP.nan := by
  simp [finalizeFP, initFP, fdiv]

theorem observeFP_num {d : ℕ} (st : FPState d) (scores : List FP)
    (values : List (Fin d → FP)) (i : Fin d) :
    (observeFP st scores values).numF i
      = fadd (fmul (st.numF i)
            (fexp (fsub st.maxF (fmax (blockMaxFP scores) st.maxF))))
          (fsum (List.zipWith (fun e v => fmul e (v i))
            (scores.map fun a => fexp (fsub a (fmax (blockMaxFP scores) st.maxF)))
            values)) := rfl

theorem observeFP_den {d : ℕ} (st : FPState d) (scores : List FP)
    (values : List (Fin d → FP)) :
    (observeFP st scores values).denF
      = fadd (fmul st.denF
            (fexp (fsub st.maxF (fmax (blockMaxFP scores) st.maxF))))
          (fsum (scores.map fun a =>
            fexp (fsub a (fmax (blockMaxFP scores) st.maxF)))) := rfl

theorem observeFP_max {d : ℕ} (st : FPState d) (scores : List FP)
    (values : List (Fin d → FP)) :
    (observeFP st scores values).maxF = fmax (blockMaxFP scores) st.maxF := rfl

theorem zip_fmul_eq_map_fin {d : ℕ} (xs : List ℝ) (vs : List (Vec d)) (i : Fin d) :
    List.zipWith (fun e v => fmul e (v i)) (xs.map FP.fin)
        (vs.map fun v j => FP.fin (v j))
      = (List.zipWith (fun x v => x * v i) xs vs).map FP.fin := by
  induction xs generalizing vs with
  | nil => simp
  | cons x txs ih =>
    cases vs with
    | nil => simp
    | cons v tvs => simp [ih]

/-- A state whose numerator and denominator are finite doubles (denominator
nonnegative) and whose running max is `-inf` or finite — the shape every
state reachable from `initFP` by finite-score chunks has. -/
def GoodState {d : ℕ} (st : FPState d) : Prop :=
  (∀ i, ∃ a, st.numF i = FP.fin a) ∧
  (∃ b, 0 ≤ b ∧ st.denF = FP.fin b) ∧
  (st.maxF = FP.ninf ∨ ∃ x, st.maxF = FP.fin x)

/-- All components of a state are finite doubles — no NaN, no infinity —
with a strictly positive denominator and a finite finalized result. -/
def AllFinite {d : ℕ} (st : FPState d) : Prop :=
  (∀ i, ∃ a, st.numF i = FP.fin a) ∧
  (∃ c, 0 < c ∧ st.denF = FP.fin c) ∧
  (∃ M, st.maxF = FP.fin M) ∧
  (∀ i, ∃ r, finalizeFP st i = FP.fin r)

/-- Claim **C3 amended** (non-NaN on finite rows): the correction factor
`exp(running_max - new_max)` equals `0` when `running_max` is `-inf` and
`new_max` finite, and an observe update on a nonempty block of finite
scores and finite values starting from any well-shaped state — the very
first call included, where the code multiplies the zero numerator by the
correction `exp(-inf - new_max) = 0` instead of skipping the multiply —
yields finite numerator, strictly positive finite denominator, finite
running max, and a finite (NaN/Inf-free) finalized result.  (A row whose
scores are all `-inf` does yield NaN: see the counterexample.) -/
theorem c3_no_nan_on_finite_scores {d : ℕ} (m : ℝ) (st : FPState d)
    (rs : List ℝ) (vs : List (Vec d)) (hrs : rs ≠ []) (hst : GoodState st) :
    fexp (fsub FP.ninf (FP.fin m)) = FP.fin 0 ∧
      AllFinite (observeFP st (rs.map FP.fin) (vs.map fun v j => FP.fin (v j))) := by
  obtain ⟨hnum, ⟨b, hb0, hbden⟩, hmax⟩ := hst
  obtain ⟨B, hB⟩ := blockMaxFP_map_fin hrs
  have hnm : ∃ M', fmax (blockMaxFP (rs.map FP.fin)) st.maxF = FP.fin M' := by
    rcases hmax with h | ⟨x, h⟩
    · exact ⟨B, by rw [hB, h, fmax_fin_ninf]⟩
    · exact ⟨max B x, by rw [hB, h, fmax_fin_fin]⟩
  obtain ⟨M', hM'⟩ := hnm
  have hcorr : ∃ c₀, 0 ≤ c₀ ∧
      fexp (fsub st.maxF (fmax (blockMaxFP (rs.map FP.fin)) st.maxF))
        = FP.fin c₀ := by
    rcases hmax with h | ⟨x, h⟩
    · exact ⟨0, le_refl 0, by rw [hM', h, fsub_ninf_fin, fexp_ninf]⟩
    · exact ⟨Real.exp (x - M'), (Real.exp_pos _).le,
        by rw [hM', h, fsub_fin_fin, fexp_fin]⟩
  obtain ⟨c₀, hc₀, hcorr⟩ := hcorr
  have hexpS : (rs.map FP.fin).map
        (fun a => fexp (fsub a (fmax (blockMaxFP (rs.map FP.fin)) st.maxF)))
      = (rs.map fun r => Real.exp (r - M')).map FP.fin := by
    rw [hM', List.map_map, List.map_map]
    apply List.map_congr_left
    intro r _
    show fexp (fsub (FP.fin r) (FP.fin M')) = FP.fin (Real.exp (r - M'))
    rw [fsub_fin_fin, fexp_fin]
  have hSpos : 0 < (rs.map fun r => Real.exp (r - M')).sum := by
    apply List.sum_pos
    · intro x hx
      obtain ⟨r, _, rfl⟩ := List.mem_map.mp hx
      exact Real.exp_pos _
    · simpa using hrs
  have hdval : (observeFP st (rs.map FP.fin) (vs.map fun v j => FP.fin (v j))).denF
      = FP.fin (b * c₀ + (rs.map fun r => Real.exp (r - M')).sum) := by
    rw [observeFP_den, hbden, hcorr, fmul_fin_fin, hexpS, fsum_map_fin,
      fadd_fin_fin]
  have hdpos : 0 < b * c₀ + (rs.map fun r => Real.exp (r - M')).sum :=
    add_pos_of_nonneg_of_pos (mul_nonneg hb0 hc₀) hSpos
  have hnval : ∀ i, ∃ a,
      (observeFP st (rs.map FP.fin) (vs.map fun v j => FP.fin (v j))).numF i
        = FP.fin a := by
    intro i
    obtain ⟨a, ha⟩ := hnum i
    refine ⟨a * c₀ + (List.zipWith (fun x v => x * v i)
      (rs.map fun r => Real.exp (r - M')) vs).sum, ?_⟩
    rw [observeFP_num, ha, hcorr, fmul_fin_fin, hexpS, zip_fmul_eq_map_fin,
      fsum_map_fin, fadd_fin_fin]
  refine ⟨rfl, hnval, ⟨_, hdpos, hdval⟩, ⟨M', ?_⟩, ?_⟩
  · rw [observeFP_max, hM']
  · intro i
    obtain ⟨a, ha⟩ := hnval i
    refine ⟨a / (b * c₀ + (rs.map fun r => Real.exp (r - M')).sum), ?_⟩
    rw [finalizeFP, ha, hdval, fdiv_fin_fin _ _ (ne_of_gt hdpos)]

/-- Claim **C3 counterexample**: for a query row whose scores are all `-inf`, the
very first observe update evaluates `exp(-inf - (-inf)) = exp(nan)` in both
the correction factor and the block exponentials — it is not skipped — and
numerator, denominator and the final result all become NaN, contradicting
the claim that no input row produces NaN. -/
theorem c3_counterexample :
    (observeFP (initFP 1) [FP.ninf] [fun _ => FP.fin 1]).numF 0 = FP.nan ∧
      (observeFP (initFP 1) [FP.ninf] [fun _ => FP.fin 1]).denF = FP.nan ∧
      finalizeFP (observeFP (initFP 1) [FP.ninf] [fun _ => FP.fin 1]) 0
        = FP.nan :=
  ⟨rfl, rfl, rfl⟩

/-- Witness for the amended C3 at a concrete first call. -/
theorem c3_no_nan_on_finite_scores_witness :
    (([(0:ℝ)] ≠ []) ∧ GoodState (initFP 1)) ∧
      (fexp (fsub FP.ninf (FP.fin 0)) = FP.fin 0 ∧
        AllFinite (observeFP (initFP 1) ([(0:ℝ)].map FP.fin)
          (([fun _ => (0:ℝ)] : List (Vec 1)).map fun v j => FP.fin (v j)))) :=
  ⟨⟨by simp, fun i => ⟨0, rfl⟩, ⟨0, le_refl 0, rfl⟩, Or.inl rfl⟩,
   c3_no_nan_on_finite_scores 0 (initFP 1) [0] [fun _ => 0] (by simp)
     ⟨fun i => ⟨0, rfl⟩, ⟨0, le_refl 0, rfl⟩, Or.inl rfl⟩⟩

/-!
## Shape asserts (C9)

Cell 21 asserts `list(k.shape) == [b, s, d]` and `list(v.shape) == [b, s, d]`
for every chunk, and `start_host` asserts `k.shape == (b, s, d)` and
`v.shape == (b, s, d)` — all against the fixed global `s`.
-/

/-- The chunk loop with its shape asserts: each chunk's score row (one
score per key) and value block must have exactly the fixed length `s`,
otherwise the assert fires (`none`). -/
noncomputable def runChecked {d : ℕ} (s : ℕ) (st : AccState d) :
    List (Chunk d) → Option (AccState d)
  | [] => some st
  | c :: rest =>
      if c.1.length = s ∧ c.2.length = s then
        runChecked s (observeS st c.1 c.2) rest
      else none

/-- Claim **C9 counterexample**: two chunks of sequence lengths 1 and 2 are
rejected by the shape asserts (the run fails), contradicting the claim
that per-chunk sequence lengths may differ chunk-to-chunk. -/
theorem c9_counterexample :
    runChecked 1 (initState 1)
      [([0], [fun _ => 0]), ([0, 0], [fun _ => 0, fun _ => 0])] = none := by
  simp [runChecked]

/-- Claim **C9 amended**: the shape asserts require every chunk to carry exactly
the fixed sequence length `s`; when all chunks do, the computation succeeds
and returns the unguarded accumulator result. -/
theorem c9_uniform_length_accepted {d : ℕ} (s : ℕ) (st : AccState d)
    (chunks : List (Chunk d))
    (hg : ∀ c ∈ chunks, c.1.length = s ∧ c.2.length = s) :
    runChecked s st chunks = some (runChunks st chunks) := by
  induction chunks generalizing st with
  | nil => rfl
  | cons c t ih =>
    show (if c.1.length = s ∧ c.2.length = s then
        runChecked s (observeS st c.1 c.2) t
      else none) = _
    rw [if_pos (hg c (by simp))]
    exact ih _ fun x hx => hg x (by simp [hx])

/-- Witness for the amended C9. -/
theorem c9_uniform_length_accepted_witness :
    (∀ c ∈ ([unitChunk] : List (Chunk 1)), c.1.length = 1 ∧ c.2.length = 1) ∧
      runChecked 1 (initState 1) [unitChunk]
        = some (runChunks (initState 1) [unitChunk]) :=
  ⟨by simp [unitChunk], c9_uniform_length_accepted 1 (initState 1) [unitChunk]
    (by simp [unitChunk])⟩

/-!
## Result collection (C8)

`ring_transformer` collects `(index, result)` pairs from the shared
`primary` queue in whatever order workers finish, then runs
`sorted(...)` — Python sorts tuples by first component first, and the
worker indices are pairwise distinct — and stacks the second components.
-/

/-- Models `sorted([primary.get() for _ in range(num_hosts)])`, keyed by the
worker index. -/
def collectOutputs {α : Type} (l : List (ℕ × α)) : List (ℕ × α) :=
  l.mergeSort fun a b => decide (a.1 ≤ b.1)

theorem sorted_keyed_unique {α : Type} :
    ∀ (l₂ l₁ : List (ℕ × α)), l₁.Perm l₂ →
      List.Pairwise (fun a b : ℕ × α => a.1 ≤ b.1) l₁ →
      List.Pairwise (fun a b : ℕ × α => a.1 < b.1) l₂ →
      l₁ = l₂ := by
  intro l₂
  induction l₂ with
  | nil =>
    intro l₁ hp _ _
    exact hp.eq_nil
  | cons y t ih =>
    intro l₁ hp hs₁ hs₂
    cases l₁ with
    | nil => exact absurd hp.symm.eq_nil (by simp)
    | cons x s =>
      have hxy : x = y := by
        have hx_mem : x ∈ y :: t := hp.mem_iff.mp (by simp)
        have hy_mem : y ∈ x :: s := hp.mem_iff.mpr (by simp)
        rcases List.mem_cons.mp hx_mem with h | hxt
        · exact h
        · rcases List.mem_cons.mp hy_mem with h' | hys
          · exact h'.symm
          · have h1 : y.1 < x.1 := (List.pairwise_cons.mp hs₂).1 x hxt
            have h2 : x.1 ≤ y.1 := (List.pairwise_cons.mp hs₁).1 y hys
            exact ((lt_irrefl _ (lt_of_le_of_lt h2 h1)).elim)
      subst hxy
      rw [ih s hp.cons_inv (List.pairwise_cons.mp hs₁).2
        (List.pairwise_cons.mp hs₂).2]

theorem canonical_pairwise {α : Type} (N : ℕ) (f : ℕ → α) :
    List.Pairwise (fun a b : ℕ × α => a.1 < b.1)
      ((List.range N).map fun i => (i, f i)) := by
  apply List.Pairwise.map
  · intro a b hab
    exact hab
  · exact List.pairwise_lt_range N

/-- Claim **C8** (determinism of collection): whatever order the worker results
arrive in on the collection channel — any permutation of the N emitted
`(worker_index, result)` pairs — sorting by worker index returns the same
list, equal to the canonical index-ordered list; hence any two runs return
their output chunks in identical index order. -/
theorem c8_collection_deterministic {α : Type} (N : ℕ) (f : ℕ → α)
    (l₁ l₂ : List (ℕ × α))
    (h₁ : l₁.Perm ((List.range N).map fun i => (i, f i)))
    (h₂ : l₂.Perm ((List.range N).map fun i => (i, f i))) :
    collectOutputs l₁ = collectOutputs l₂ ∧
      (collectOutputs l₁).map Prod.snd = (List.range N).map f := by
  have key : ∀ l : List (ℕ × α),
      l.Perm ((List.range N).map fun i => (i, f i)) →
      collectOutputs l = (List.range N).map fun i => (i, f i) := by
    intro l hl
    apply sorted_keyed_unique
    · exact (List.mergeSort_perm l _).trans hl
    · have hs := @List.sorted_mergeSort (ℕ × α)
        (fun a b => decide (a.1 ≤ b.1))
        (by intro a b c hab hbc
            simp only [decide_eq_true_eq] at hab hbc ⊢
            omega)
        (by intro a b
            simp only [Bool.or_eq_true, decide_eq_true_eq]
            omega)
        l
      exact hs.imp (by intro a b h; simpa using h)
    · exact canonical_pairwise N f
  refine ⟨(key l₁ h₁).trans (key l₂ h₂).symm, ?_⟩
  rw [key l₁ h₁, List.map_map]
  rfl

/-- Witness for C8 on a one-worker collection. -/
theorem c8_collection_deterministic_witness :
    (([((0:ℕ), (0:ℕ))]).Perm ((List.range 1).map fun i => (i, (fun _ => 0) i)) ∧
        ([((0:ℕ), (0:ℕ))]).Perm
          ((List.range 1).map fun i => (i, (fun _ => 0) i))) ∧
      (collectOutputs [((0:ℕ), (0:ℕ))] = collectOutputs [((0:ℕ), (0:ℕ))] ∧
        (collectOutputs [((0:ℕ), (0:ℕ))]).map Prod.snd
          = (List.range 1).map fun _ => (0:ℕ)) :=
  ⟨⟨List.Perm.refl _, List.Perm.refl _⟩,
   c8_collection_deterministic 1 (fun _ => (0:ℕ)) _ _ (List.Perm.refl _)
     (List.Perm.refl _)⟩

/-!
## Post-processing transform (C10)

Cell 25: `layer_norm(x) = (x - mean) / np.sqrt(variance)` with no epsilon
guard, and `postprocess = layer_norm ∘ residual ∘ linear ∘ relu ∘ linear ∘
layer_norm`.  All of these act independently on each position's feature
vector, so the model takes one position's features as a `List FP`.
-/

open Classical in
/-- Models `np.sqrt` on doubles. -/
noncomputable def fsqrt : FP → FP
  | .nan => .nan
  | .pinf => .pinf
  | .ninf => .nan
  | .fin a => if a < 0 then .nan else .fin (Real.sqrt a)

/-- Models `layer_norm` of cell 25, per position: mean and (population) variance
along the feature axis, then `(x - mean) / sqrt(variance)` — no epsilon. -/
noncomputable def layerNormFP (x : List FP) : List FP :=
  let n : FP := .fin (x.length : ℝ)
  let mean := fdiv (fsum x) n
  let centered := x.map fun a => fsub a mean
  let variance := fdiv (fsum (centered.map fun a => fmul a a)) n
  centered.map fun a => fdiv a (fsqrt variance)

/-- Models `relu(x) = np.maximum(0, x)`. -/
noncomputable def reluFP (x : List FP) : List FP := x.map fun a => fmax (.fin 0) a

/-- Models `linear(x, w, b) = np.einsum('bqd,dw -> bqw', x, w) + b`, per position:
the `j`-th output is `Σ_d x_d * w[d, j] + b_j`; `wcols` lists the columns
of `w`. -/
noncomputable def linearFP (wcols : List (List FP)) (bs : List FP)
    (x : List FP) : List FP :=
  List.zipWith (fun col bj => fadd (fsum (List.zipWith fmul x col)) bj) wcols bs

/-- Models `postprocess` of cell 25, per position. -/
noncomputable def postprocessFP (w1 : List (List FP)) (b1 : List FP)
    (w2 : List (List FP)) (b2 : List FP) (x : List FP) : List FP :=
  let x1 := layerNormFP x
  let x2 := linearFP w1 b1 x1
  let x3 := reluFP x2
  let x4 := linearFP w2 b2 x3
  let x5 := List.zipWith fadd x x4
  layerNormFP x5

@[simp] theorem fadd_nan_left (x : FP) : fadd .nan x = .nan := by
  cases x <;> rfl

@[simp] theorem fadd_nan_right (x : FP) : fadd x .nan = .nan := by
  cases x <;> rfl

@[simp] theorem fmul_nan_left (x : FP) : fmul .nan x = .nan := by
  cases x <;> rfl

@[simp] theorem fsub_nan_left (x : FP) : fsub .nan x = .nan := by
  cases x <;> rfl

@[simp] theorem fsub_nan_right (x : FP) : fsub x .nan = .nan := by
  cases x <;> rfl

@[simp] theorem fdiv_nan_left (x : FP) : fdiv .nan x = .nan := by
  cases x <;> rfl

@[simp] theorem fmax_nan_right (x : FP) : fmax x .nan = .nan := by
  cases x <;> rfl

@[simp] theorem fsqrt_nan : fsqrt .nan = .nan := rfl

theorem fsqrt_fin_zero : fsqrt (.fin 0) = .fin 0 := by
  show (if (0:ℝ) < 0 then FP.nan else FP.fin (Real.sqrt 0)) = _
  rw [if_neg (lt_irrefl _), Real.sqrt_zero]

theorem fdiv_fin_zero_zero : fdiv (.fin 0) (.fin 0) = .nan := by
  show (if (0:ℝ) = 0 then (if (0:ℝ) = 0 then FP.nan else _) else _) = _
  rw [if_pos rfl, if_pos rfl]

theorem foldl_fadd_nan : ∀ l : List FP, List.foldl fadd .nan l = .nan := by
  intro l
  induction l with
  | nil => rfl
  | cons a t ih =>
    show List.foldl fadd (fadd FP.nan a) t = FP.nan
    rw [fadd_nan_left]
    exact ih

@[simp] theorem fsum_cons_nan (l : List FP) : fsum (.nan :: l) = .nan := by
  show List.foldl fadd (fadd (.fin 0) .nan) l = .nan
  rw [fadd_nan_right]
  exact foldl_fadd_nan l

theorem fsum_replicate_fin (n : ℕ) (r : ℝ) :
    fsum (List.replicate n (FP.fin r)) = .fin (n * r) := by
  rw [← List.map_replicate, fsum_map_fin, List.sum_replicate, nsmul_eq_mul]

theorem zipWith_replicate_both {α β γ : Type*} (f : α → β → γ) (n : ℕ)
    (a : α) (b : β) :
    List.zipWith f (List.replicate n a) (List.replicate n b)
      = List.replicate n (f a b) := by
  induction n with
  | zero => rfl
  | succ m ih => simp [List.replicate_succ, ih]

/-- Applying `layer_norm` to a constant finite feature vector: variance is zero, the
division is `0 / sqrt(0) = 0 / 0`, and every entry becomes NaN. -/
theorem layerNorm_const_nan (n : ℕ) (c : ℝ) (hn : 1 ≤ n) :
    layerNormFP (List.replicate n (FP.fin c)) = List.replicate n FP.nan := by
  have hne : (n:ℝ) ≠ 0 := Nat.cast_ne_zero.mpr (by omega)
  simp only [layerNormFP, List.length_replicate]
  rw [fsum_replicate_fin, fdiv_fin_fin _ _ hne, mul_div_cancel_left₀ _ hne,
    List.map_replicate, fsub_fin_fin, sub_self, List.map_replicate,
    List.map_replicate, fmul_fin_fin, mul_zero, fsum_replicate_fin, mul_zero,
    fdiv_fin_fin _ _ hne, zero_div, fsqrt_fin_zero, fdiv_fin_zero_zero]

/-- Applying `layer_norm` to an all-NaN vector stays all-NaN. -/
theorem layerNorm_nan (n : ℕ) (hn : 1 ≤ n) :
    layerNormFP (List.replicate n FP.nan) = List.replicate n FP.nan := by
  obtain ⟨m, rfl⟩ : ∃ m, n = m + 1 := ⟨n - 1, by omega⟩
  simp only [layerNormFP, List.length_replicate]
  rw [List.replicate_succ, fsum_cons_nan, fdiv_nan_left, ← List.replicate_succ,
    List.map_replicate, fsub_nan_right, List.map_replicate, fdiv_nan_left]

theorem fsum_zip_nan (col : List FP) (hcol : col ≠ []) (m : ℕ) :
    fsum (List.zipWith fmul (List.replicate (m + 1) FP.nan) col) = .nan := by
  cases col with
  | nil => exact absurd rfl hcol
  | cons c cr =>
    rw [List.replicate_succ, List.zipWith_cons_cons, fmul_nan_left,
      fsum_cons_nan]

/-- A linear layer applied to an all-NaN position is all-NaN. -/
theorem linearFP_nan (n : ℕ) (hn : 1 ≤ n) (w : List (List FP)) (bs : List FP)
    (hw : ∀ col ∈ w, col.length = n) :
    linearFP w bs (List.replicate n FP.nan)
      = List.replicate (min w.length bs.length) FP.nan := by
  obtain ⟨m, rfl⟩ : ∃ m, n = m + 1 := ⟨n - 1, by omega⟩
  induction w generalizing bs with
  | nil => simp [linearFP]
  | cons col w' ih =>
    cases bs with
    | nil => simp [linearFP]
    | cons bj bs' =>
      have hcol : col ≠ [] := by
        intro h
        have := hw col (by simp)
        rw [h] at this
        simp at this
      show fadd (fsum (List.zipWith fmul (List.replicate (m+1) FP.nan) col)) bj
          :: linearFP w' bs' (List.replicate (m+1) FP.nan) = _
      rw [fsum_zip_nan col hcol m, fadd_nan_left,
        ih bs' fun x hx => hw x (by simp [hx])]
      simp [List.replicate_succ, Nat.succ_min_succ]

/-- Claim **C10** (layer_norm divides by zero on constant features): for any
position whose feature vector is constant along the feature dimension, the
unguarded `(x - mean) / sqrt(variance)` in `layer_norm` divides zero by
zero, and both the layer-norm output and the full `postprocess` output for
that position consist entirely of NaN — no error is raised. -/
theorem c10_postprocess_nan (n : ℕ) (c : ℝ) (hn : 1 ≤ n)
    (w1 w2 : List (List FP)) (b1 b2 : List FP)
    (hw1 : ∀ col ∈ w1, col.length = n) (hl1 : w1.length = n)
    (hb1 : b1.length = n)
    (hw2 : ∀ col ∈ w2, col.length = n) (hl2 : w2.length = n)
    (hb2 : b2.length = n) :
    layerNormFP (List.replicate n (FP.fin c)) = List.replicate n FP.nan ∧
      postprocessFP w1 b1 w2 b2 (List.replicate n (FP.fin c))
        = List.replicate n FP.nan := by
  have h1 := layerNorm_const_nan n c hn
  refine ⟨h1, ?_⟩
  have hrelu : reluFP (List.replicate n FP.nan) = List.replicate n FP.nan := by
    rw [reluFP, List.map_replicate, fmax_nan_right]
  simp only [postprocessFP]
  rw [h1, linearFP_nan n hn w1 b1 hw1, hl1, hb1, min_self, hrelu,
    linearFP_nan n hn w2 b2 hw2, hl2, hb2, min_self,
    zipWith_replicate_both, fadd_nan_right]
  exact layerNorm_nan n hn

/-- Witness for C10 at a concrete constant position. -/
theorem c10_postprocess_nan_witness :
    ((1 ≤ 1) ∧ (∀ col ∈ [[FP.fin 0]], col.length = 1) ∧
        ([[FP.fin 0]] : List (List FP)).length = 1 ∧
        ([FP.fin 0] : List FP).length = 1) ∧
      (layerNormFP (List.replicate 1 (FP.fin 1)) = List.replicate 1 FP.nan ∧
        postprocessFP [[FP.fin 0]] [FP.fin 0] [[FP.fin 0]] [FP.fin 0]
            (List.replicate 1 (FP.fin 1))
          = List.replicate 1 FP.nan) :=
  ⟨⟨le_refl 1, by simp, by simp, by simp⟩,
   c10_postprocess_nan 1 1 (le_refl 1) [[FP.fin 0]] [[FP.fin 0]]
     [FP.fin 0] [FP.fin 0] (by simp) (by simp) (by simp) (by simp) (by simp)
     (by simp)⟩

/-!
## Ring protocol (C2)

`ring_transformer` connects N workers in a directed cycle: worker i reads
from queue (i-1) mod N and writes to queue i mod N, and queue i is
pre-loaded with chunk i before the workers start.  Each queue has exactly
one producer and one consumer and preserves send order (FIFO), and each
worker forwards every received chunk unchanged.  Hence the stream on
queue i is `chunk i` followed by worker i's received chunks in order, and
worker i's round-t receive is element t of queue (i-1)'s stream: round 0
delivers the pre-loaded `chunk ((i-1) mod N)`, and round t+1 delivers what
worker (i-1) mod N received (and forwarded) in round t.  `ringMsg` is this
data flow.
-/

/-- Chunk index received by worker `i` in round `t` under the ring's FIFO
discipline (see the section comment). -/
def ringMsg (N : ℕ) : ℕ → ℕ → ℕ
  | i, 0 => (i + N - 1) % N
  | i, t + 1 => ringMsg N ((i + N - 1) % N) t

theorem ringMsg_lt (N : ℕ) (hN : 1 ≤ N) : ∀ (t i : ℕ), ringMsg N i t < N := by
  intro t
  induction t with
  | zero => intro i; exact Nat.mod_lt _ (by omega)
  | succ t ih => intro i; exact ih _

theorem ringMsg_modeq (N : ℕ) (hN : 1 ≤ N) :
    ∀ (t i : ℕ), ringMsg N i t ≡ i + (N - 1) * (t + 1) [MOD N] := by
  intro t
  induction t with
  | zero =>
    intro i
    show (i + N - 1) % N ≡ i + (N - 1) * 1 [MOD N]
    have h : i + N - 1 = i + (N - 1) * 1 := by omega
    rw [h]
    exact Nat.mod_modEq _ _
  | succ t ih =>
    intro i
    show ringMsg N ((i + N - 1) % N) t ≡ _ [MOD N]
    calc ringMsg N ((i + N - 1) % N) t
        ≡ (i + N - 1) % N + (N - 1) * (t + 1) [MOD N] := ih _
      _ ≡ (i + N - 1) + (N - 1) * (t + 1) [MOD N] :=
          Nat.ModEq.add_right _ (Nat.mod_modEq _ _)
      _ = i + (N - 1) + (N - 1) * (t + 1) := by omega
      _ = i + (N - 1) * (t + 1 + 1) := by ring

theorem ringMsg_inj (N : ℕ) (hN : 1 ≤ N) (i : ℕ) {t₁ t₂ : ℕ}
    (h₁ : t₁ < N) (h₂ : t₂ < N) (h : ringMsg N i t₁ = ringMsg N i t₂) :
    t₁ = t₂ := by
  have e₁ := ringMsg_modeq N hN t₁ i
  have e₂ := ringMsg_modeq N hN t₂ i
  have hmm : i + (N - 1) * (t₁ + 1) ≡ i + (N - 1) * (t₂ + 1) [MOD N] :=
    e₁.symm.trans (h ▸ e₂)
  have h3 : (N - 1) * (t₁ + 1) ≡ (N - 1) * (t₂ + 1) [MOD N] :=
    hmm.add_left_cancel' i
  have hco : Nat.Coprime N (N - 1) := by
    obtain ⟨k, rfl⟩ : ∃ k, N = k + 1 := ⟨N - 1, by omega⟩
    simp only [Nat.add_sub_cancel]
    rw [Nat.add_comm]
    exact Nat.coprime_add_self_left.mpr (Nat.coprime_one_left k)
  have h4 : t₁ + 1 ≡ t₂ + 1 [MOD N] := Nat.ModEq.cancel_left_of_coprime hco h3
  have h5 : t₁ ≡ t₂ [MOD N] := h4.add_right_cancel' 1
  have h6 : t₁ % N = t₂ % N := h5
  rwa [Nat.mod_eq_of_lt h₁, Nat.mod_eq_of_lt h₂] at h6

/-- The sequence of chunk indices worker `i` observes over the N rounds is
a permutation of `{0, …, N-1}`: each chunk exactly once. -/
theorem ringOrder_perm (N : ℕ) (hN : 1 ≤ N) (i : ℕ) :
    ((List.range N).map (ringMsg N i)).Perm (List.range N) := by
  have hnd : ((List.range N).map (ringMsg N i)).Nodup := by
    apply List.Nodup.map_on
    · intro x hx y hy hxy
      exact ringMsg_inj N hN i (List.mem_range.mp hx) (List.mem_range.mp hy) hxy
    · exact List.nodup_range N
  apply List.perm_of_nodup_nodup_toFinset_eq hnd (List.nodup_range N)
  apply Finset.eq_of_subset_of_card_le
  · intro x hx
    simp only [List.mem_toFinset, List.mem_map] at hx
    obtain ⟨t, _, rfl⟩ := hx
    simp only [List.mem_toFinset, List.mem_range]
    exact ringMsg_lt N hN t i
  · rw [List.toFinset_card_of_nodup hnd, List.toFinset_card_of_nodup
      (List.nodup_range N)]
    simp

/-- A key/value chunk: the key rows and value rows one ring message carries. -/
abbrev KV (d : ℕ) := List (Vec d) × List (Vec d)

/-- One query row's view of a key/value chunk, as fed to the accumulator:
the row of scores `np.einsum('bqd,bkd -> bqk', q, k)` paired with the
value rows. -/
noncomputable def chunkFor {d : ℕ} (q : Vec d) (kv : KV d) : Chunk d :=
  (kv.1.map (dot q), kv.2)

/-- One worker's computation for one of its query rows, given the order in
which chunk indices arrive: fold the accumulator over the chunks in that
order, finalize, post-process. -/
noncomputable def workerRow {d : ℕ} (kvs : ℕ → KV d) (order : List ℕ)
    (post : Vec d → Vec d) (q : Vec d) : Vec d :=
  post (finalize (runChunks (initState d)
    (order.map fun j => chunkFor q (kvs j))))

/-- Worker i's output chunk under the ring schedule (`start_host`). -/
noncomputable def ringWorkerOut {d : ℕ} (N : ℕ) (Qc : ℕ → List (Vec d))
    (kvs : ℕ → KV d) (post : Vec d → Vec d) (i : ℕ) : List (Vec d) :=
  (Qc i).map (workerRow kvs ((List.range N).map (ringMsg N i)) post)

/-- Worker i's output chunk under the single-process sequential schedule
(cell 26: chunks in index order 0, …, N-1). -/
noncomputable def seqWorkerOut {d : ℕ} (N : ℕ) (Qc : ℕ → List (Vec d))
    (kvs : ℕ → KV d) (post : Vec d → Vec d) (i : ℕ) : List (Vec d) :=
  (Qc i).map (workerRow kvs (List.range N) post)

/-- The `softmax` of a list of scores over exact reals: `exp sᵢ / Σ exp s`. -/
noncomputable def softmaxL (scores : List ℝ) : List ℝ :=
  scores.map fun a => Real.exp a / (scores.map Real.exp).sum

/-- Dense attention for one query row against the full concatenated
key/value sequence (cell 23): softmax of all scores, then the weighted sum
of all value rows. -/
noncomputable def denseAttnRow {d : ℕ} (ks vs : List (Vec d)) (q : Vec d) :
    Vec d :=
  fun x => (List.zipWith (fun w v => w * v x) (softmaxL (ks.map (dot q))) vs).sum

/-- Dense per-chunk outputs (cell 28): dense attention for chunk i's query
rows over the concatenated sequence, post-processed. -/
noncomputable def denseWorkerOut {d : ℕ} (N : ℕ) (Qc : ℕ → List (Vec d))
    (kvs : ℕ → KV d) (post : Vec d → Vec d) (i : ℕ) : List (Vec d) :=
  (Qc i).map fun q => post (denseAttnRow
    ((List.range N).flatMap fun j => (kvs j).1)
    ((List.range N).flatMap fun j => (kvs j).2) q)

theorem chunkFor_good {d : ℕ} (q : Vec d) {kv : KV d} (h1 : kv.1 ≠ [])
    (h2 : kv.1.length = kv.2.length) : goodChunk (chunkFor q kv) :=
  ⟨by simpa [chunkFor] using h1, by simpa [chunkFor] using h2⟩

theorem flatMap_length_eq {d : ℕ} (kvs : ℕ → KV d) :
    ∀ js : List ℕ, (∀ j ∈ js, (kvs j).1.length = (kvs j).2.length) →
      (js.flatMap fun j => (kvs j).1).length
        = (js.flatMap fun j => (kvs j).2).length := by
  intro js
  induction js with
  | nil => intro _; rfl
  | cons j t ih =>
    intro h
    simp only [List.flatMap_cons, List.length_append, h j (by simp),
      ih fun x hx => h x (by simp [hx])]

theorem flatPairs_chunkFor {d : ℕ} (q : Vec d) (kvs : ℕ → KV d) :
    ∀ js : List ℕ, (∀ j ∈ js, (kvs j).1.length = (kvs j).2.length) →
      flatPairs (js.map fun j => chunkFor q (kvs j))
        = ((js.flatMap fun j => (kvs j).1).map (dot q)).zip
            (js.flatMap fun j => (kvs j).2) := by
  intro js
  induction js with
  | nil => intro _; rfl
  | cons j t ih =>
    intro h
    simp only [List.map_cons, flatPairs, List.flatMap_cons, List.map_append]
    rw [List.zip_append (by simp [h j (by simp)])]
    show (chunkFor q (kvs j)).1.zip (chunkFor q (kvs j)).2
        ++ flatPairs (t.map fun j => chunkFor q (kvs j)) = _
    rw [ih fun x hx => h x (by simp [hx])]
    rfl

theorem dense_eq_softmaxSum {d : ℕ} (scores : List ℝ) (vs : List (Vec d))
    (x : Fin d) (hlen : scores.length = vs.length) :
    (List.zipWith (fun w v => w * v x) (softmaxL scores) vs).sum
      = softmaxSum (scores.zip vs) x := by
  have hfst : (scores.zip vs).map Prod.fst = scores := List.map_fst_zip _ _ hlen.le
  have hden : exactDen (scores.zip vs) = (scores.map Real.exp).sum := by
    conv_rhs => rw [← hfst, List.map_map]
    rfl
  rw [softmaxL, List.zipWith_map_left, zipWith_eq_map_zip, softmaxSum, hden,
    exactNum]
  have step : ((scores.zip vs).map fun p =>
        (Real.exp p.1 / (scores.map Real.exp).sum) * p.2 x)
      = (scores.zip vs).map fun p =>
        (Real.exp p.1 * p.2 x) * ((scores.map Real.exp).sum)⁻¹ := by
    apply List.map_congr_left
    intro p _
    rw [div_eq_mul_inv]
    ring
  rw [step, List.sum_map_mul_right, div_eq_mul_inv]

/-- Claim **C2** (ring equivalence): for every N ≥ 1 and every collection of N
query/key/value chunks, each ring worker — receiving on its inbound FIFO
queue, accumulating, and forwarding for exactly N rounds starting from the
pre-loaded initial messages — observes the chunk indices `{0, …, N-1}`
each exactly once, its output chunk equals the single-process sequential
chunked computation's output chunk, and the sequential outputs equal dense
softmax attention over the concatenated sequence, over exact reals. -/
theorem c2_ring_equivalence {d : ℕ} (N : ℕ) (hN : 1 ≤ N)
    (Qc : ℕ → List (Vec d)) (kvs : ℕ → KV d) (post : Vec d → Vec d)
    (hgood : ∀ j < N, (kvs j).1 ≠ [] ∧ (kvs j).1.length = (kvs j).2.length)
    (i : ℕ) (_hi : i < N) :
    ((List.range N).map (ringMsg N i)).Perm (List.range N) ∧
      ringWorkerOut N Qc kvs post i = seqWorkerOut N Qc kvs post i ∧
      seqWorkerOut N Qc kvs post i = denseWorkerOut N Qc kvs post i := by
  have horder := ringOrder_perm N hN i
  have hlen_seq : ∀ j ∈ List.range N, (kvs j).1.length = (kvs j).2.length :=
    fun j hj => (hgood j (List.mem_range.mp hj)).2
  have hg_seq : ∀ (q : Vec d),
      ∀ x ∈ (List.range N).map fun j => chunkFor q (kvs j), goodChunk x := by
    intro q x hx
    obtain ⟨j, hj, rfl⟩ := List.mem_map.mp hx
    exact chunkFor_good _ (hgood j (List.mem_range.mp hj)).1
      (hgood j (List.mem_range.mp hj)).2
  have hne_seq : ∀ (q : Vec d),
      ((List.range N).map fun j => chunkFor q (kvs j)) ≠ [] := by
    intro q h
    have := congrArg List.length h
    simp at this
    omega
  refine ⟨horder, ?_, ?_⟩
  · apply List.map_congr_left
    intro q _
    show workerRow kvs ((List.range N).map (ringMsg N i)) post q
        = workerRow kvs (List.range N) post q
    unfold workerRow
    apply congrArg post
    apply finalize_perm
    · exact horder.map fun j => chunkFor q (kvs j)
    · intro h
      have := congrArg List.length h
      simp at this
      omega
    · intro x hx
      obtain ⟨j, hj, rfl⟩ := List.mem_map.mp hx
      have hjN : j < N := List.mem_range.mp (horder.mem_iff.mp hj)
      exact chunkFor_good _ (hgood j hjN).1 (hgood j hjN).2
  · apply List.map_congr_left
    intro q _
    show workerRow kvs (List.range N) post q = _
    unfold workerRow
    apply congrArg post
    funext x
    rw [finalize_eq_softmaxSum _ (hne_seq q) (hg_seq q) x,
      flatPairs_chunkFor q kvs (List.range N) hlen_seq,
      ← dense_eq_softmaxSum _ _ x
        (by rw [List.length_map]
            exact flatMap_length_eq kvs (List.range N) hlen_seq)]
    rfl

/-- A concrete query row and key/value chunk for the C2 witness. -/
noncomputable def unitQ : Vec 1 := fun _ => 0

/-- A concrete one-key key/value chunk for the C2 witness. -/
noncomputable def unitKV : KV 1 := ([unitQ], [unitQ])

/-- Witness for C2 on a one-worker ring. -/
theorem c2_ring_equivalence_witness :
    ((1:ℕ) ≤ 1 ∧
        (∀ j < 1, ((fun _ => unitKV : ℕ → KV 1) j).1 ≠ [] ∧
          ((fun _ => unitKV : ℕ → KV 1) j).1.length
            = ((fun _ => unitKV : ℕ → KV 1) j).2.length) ∧ (0:ℕ) < 1) ∧
      (((List.range 1).map (ringMsg 1 0)).Perm (List.range 1) ∧
        ringWorkerOut 1 (fun _ => [unitQ]) (fun _ => unitKV) id 0
          = seqWorkerOut 1 (fun _ => [unitQ]) (fun _ => unitKV) id 0 ∧
        seqWorkerOut 1 (fun _ => [unitQ]) (fun _ => unitKV) id 0
          = denseWorkerOut 1 (fun _ => [unitQ]) (fun _ => unitKV) id 0) :=
  ⟨⟨le_refl 1, fun j _ => ⟨by simp [unitKV], by simp [unitKV]⟩, Nat.zero_lt_one⟩,
   c2_ring_equivalence 1 (le_refl 1) (fun _ => [unitQ]) (fun _ => unitKV) id
     (fun j _ => ⟨by simp [unitKV], by simp [unitKV]⟩) 0 Nat.zero_lt_one⟩

end Blockwise
